import Mathlib

/-!
Verification of the SVD-based recommender core of the
Statistical-Methods-in-AI repository (HW4 notebooks).

The Python notebooks are shallowly embedded: machine floats are modelled as
exact rationals, NaN-marked missing cells as `Option ℚ`, and the library SVD
routine (`np.linalg.svd`) as explicitly passed factors `U`, `s`, `V`
constrained by hypotheses stating the factorization property. Fallible
operations (pandas elementwise arithmetic on unequal lengths) return `Except`.
-/

/-- Error taxonomy of the evaluator and the SVD engine. -/
inductive CoreError
  | LengthMismatch
  | InvalidRank
  deriving DecidableEq

/-- Embedding of the first notebook definition of the error metric:
`def rmse(true, pred): x = true - pred; return sum([xi*xi for xi in x])/len(x)`.
Elementwise subtraction of unequal-length sequences raises, modelled by the
error branch; otherwise the sum of squared differences is divided by the
length of the difference vector `x`. -/
def rmse1 (t p : List ℚ) : Except CoreError ℚ :=
  if t.length = p.length then
    Except.ok ((((List.zipWith (fun a b => a - b) t p).map (fun xi => xi * xi)).sum) /
      (((List.zipWith (fun a b => a - b) t p).length) : ℚ))
  else
    Except.error CoreError.LengthMismatch

/-- Embedding of the second notebook definition of the error metric:
`def rmse(true, arr_pred): return sum([xi*xi for xi in true - arr_pred])/len(true)`.
Same guard on lengths; the denominator is the length of `true`. -/
def rmse2 (t p : List ℚ) : Except CoreError ℚ :=
  if t.length = p.length then
    Except.ok ((((List.zipWith (fun a b => a - b) t p).map (fun xi => xi * xi)).sum) /
      (t.length : ℚ))
  else
    Except.error CoreError.LengthMismatch

/-- The squared-difference sum of the zipped lists equals the index-wise sum
of squared differences over the common length. -/
theorem zipWith_sq_sum (t p : List ℚ) (h : t.length = p.length) :
    ((List.zipWith (fun a b => a - b) t p).map (fun xi => xi * xi)).sum =
      ∑ i ∈ Finset.range t.length, (t.getD i 0 - p.getD i 0) ^ 2 := by
  induction t generalizing p with
  | nil => simp
  | cons a t ih =>
    cases p with
    | nil => simp at h
    | cons b p =>
      simp only [List.length_cons, Nat.succ.injEq] at h
      simp only [List.zipWith_cons_cons, List.map_cons, List.sum_cons,
        List.length_cons, ih p h, Finset.sum_range_succ']
      simp [add_comm, sq]

/-- The two rmse definitions agree on every input pair. -/
theorem rmse_defs_agree (t p : List ℚ) : rmse1 t p = rmse2 t p := by
  unfold rmse1 rmse2
  by_cases h : t.length = p.length
  · simp [h, List.length_zipWith]
  · simp [h]

/-- C2: on equal positive-length sequences, the evaluator (first rmse
definition) returns the mean squared error `(1/N)·Σ(true_i − pred_i)²`;
in particular true=[1,2,3], pred=[1,2,3] gives 0 and true=[0,0],
pred=[1,1] gives 1. -/
theorem rmse1_is_mean_squared_error :
    (∀ t p : List ℚ, t.length = p.length → 0 < t.length →
      rmse1 t p = Except.ok
        ((∑ i ∈ Finset.range t.length, (t.getD i 0 - p.getD i 0) ^ 2) / (t.length : ℚ))) ∧
    rmse1 [1, 2, 3] [1, 2, 3] = Except.ok 0 ∧
    rmse1 [0, 0] [1, 1] = Except.ok 1 := by
  refine ⟨fun t p h _ => ?_, by norm_num [rmse1], by norm_num [rmse1]⟩
  unfold rmse1
  rw [if_pos h, zipWith_sq_sum t p h]
  simp [List.length_zipWith, h]

/-- Witness for C2: instantiation at true=[1,2,3], pred=[4,5,6]. -/
theorem rmse1_is_mean_squared_error_witness :
    rmse1 [1, 2, 3] [4, 5, 6] = Except.ok
      ((∑ i ∈ Finset.range ([(1 : ℚ), 2, 3].length),
        ([(1 : ℚ), 2, 3].getD i 0 - [(4 : ℚ), 5, 6].getD i 0) ^ 2) /
        (([(1 : ℚ), 2, 3].length) : ℚ)) :=
  rmse1_is_mean_squared_error.1 [1, 2, 3] [4, 5, 6] (by decide) (by decide)

/-- C5: on sequences of different lengths the evaluator fails with a
LengthMismatch error. -/
theorem rmse2_length_mismatch (t p : List ℚ) (h : t.length ≠ p.length) :
    rmse2 t p = Except.error CoreError.LengthMismatch := by
  unfold rmse2
  rw [if_neg h]

/-- Witness for C5: instantiation at true=[1], pred=[]. -/
theorem rmse2_length_mismatch_witness :
    rmse2 [1] [] = Except.error CoreError.LengthMismatch :=
  rmse2_length_mismatch [1] [] (by decide)

/-- C9 counterexample: there is no pair of equal-length sequences on which
the two successive rmse definitions return different values — they are
semantically identical there. -/
theorem rmse_redefinition_no_disagreement :
    ¬ ∃ t p : List ℚ, t.length = p.length ∧ rmse1 t p ≠ rmse2 t p := by
  rintro ⟨t, p, -, hne⟩
  exact hne (rmse_defs_agree t p)

/-- C9 amended: the two successive definitions of the error metric compute
the same value on every pair of equal-length sequences; the textual change
of denominator (`len(x)` versus `len(true)`) never changes the result. -/
theorem rmse_redefinition_same_semantics (t p : List ℚ) (h : t.length = p.length) :
    rmse1 t p = rmse2 t p :=
  rmse_defs_agree t p

/-- Witness for the amended C9: instantiation at t=[1,2], p=[3,4]. -/
theorem rmse_redefinition_same_semantics_witness :
    ([(1 : ℚ), 2].length = [(3 : ℚ), 4].length) ∧ rmse1 [1, 2] [3, 4] = rmse2 [1, 2] [3, 4] :=
  ⟨by decide, rmse_redefinition_same_semantics [1, 2] [3, 4] (by decide)⟩

section MatrixBuilder

variable {ι κ : Type} [DecidableEq ι] [DecidableEq κ]

/-- Embedding of `users = list(set(data[userField]))` inside
`create_utility_matrix`: the distinct user ids of the observation list, in a
stable implementation-defined order (Python set order is arbitrary). -/
def obsUsers (obs : List (ι × κ × ℚ)) : List ι :=
  (obs.map (fun o => o.1)).dedup

/-- Embedding of `items = list(set(data[itemField]))`. -/
def obsItems (obs : List (ι × κ × ℚ)) : List κ :=
  (obs.map (fun o => o.2.1)).dedup

/-- Embedding of `users_index = {users[i]: i for i in range(len(users))}`. -/
def usersIndex (obs : List (ι × κ × ℚ)) (u : ι) : ℕ :=
  (obsUsers obs).indexOf u

/-- Embedding of `items_index = {itemcols[i]: i for i in range(len(itemcols))}`
(the DataFrame columns are the items in construction order). -/
def itemsIndex (obs : List (ι × κ × ℚ)) (it : κ) : ℕ :=
  (obsItems obs).indexOf it

/-- Embedding of the fill loop `pd_dict[item][users_index[user]] = value`
run over the observations in order: the final content of the cell addressed
by the pair (u, it); `none` models the untouched NaN initialization. -/
def cellValue (obs : List (ι × κ × ℚ)) (u : ι) (it : κ) : Option ℚ :=
  obs.foldl (fun acc o => if o.1 = u ∧ o.2.1 = it then some o.2.2 else acc) none

/-- The fill loop keeps the value of the last matching observation. -/
theorem cellValue_eq_getLast (obs : List (ι × κ × ℚ)) (u : ι) (it : κ) :
    cellValue obs u it =
      ((obs.filter (fun o => o.1 = u ∧ o.2.1 = it)).getLast?).map (fun o => o.2.2) := by
  induction obs using List.reverseRecOn with
  | nil => rfl
  | append_singleton l o ih =>
    by_cases h : o.1 = u ∧ o.2.1 = it
    · simp [cellValue, List.foldl_append, List.filter_append, h]
    · simp only [cellValue, List.foldl_append, List.filter_append] at ih ⊢
      simp [h, ih]

/-- C6: the Matrix Builder's user index map is a bijection from the distinct
user ids onto [0, num_users), likewise for items; every observation's user
and item resolve to valid (hence unique) matrix coordinates; and the final
cell value for a pair is the value of its last observation (last-write-wins
on duplicates). -/
theorem create_utility_matrix_correct (obs : List (ι × κ × ℚ)) :
    ((∀ u ∈ obsUsers obs, usersIndex obs u < (obsUsers obs).length) ∧
     (∀ u ∈ obsUsers obs, ∀ v ∈ obsUsers obs, usersIndex obs u = usersIndex obs v → u = v) ∧
     (∀ i, i < (obsUsers obs).length → ∃ u ∈ obsUsers obs, usersIndex obs u = i)) ∧
    ((∀ it ∈ obsItems obs, itemsIndex obs it < (obsItems obs).length) ∧
     (∀ it ∈ obsItems obs, ∀ jt ∈ obsItems obs, itemsIndex obs it = itemsIndex obs jt → it = jt) ∧
     (∀ j, j < (obsItems obs).length → ∃ it ∈ obsItems obs, itemsIndex obs it = j)) ∧
    (∀ o ∈ obs, o.1 ∈ obsUsers obs ∧ o.2.1 ∈ obsItems obs) ∧
    (∀ u it, cellValue obs u it =
      ((obs.filter (fun o => o.1 = u ∧ o.2.1 = it)).getLast?).map (fun o => o.2.2)) := by
  have hu : (obsUsers obs).Nodup := List.nodup_dedup _
  have hi : (obsItems obs).Nodup := List.nodup_dedup _
  refine ⟨⟨?_, ?_, ?_⟩, ⟨?_, ?_, ?_⟩, ?_, cellValue_eq_getLast obs⟩
  · exact fun u hmem => List.indexOf_lt_length.mpr hmem
  · exact fun u hu' v hv' h => (List.indexOf_inj hu' hv').mp h
  · intro i h
    exact ⟨(obsUsers obs).get ⟨i, h⟩, List.get_mem _ _ _, List.indexOf_getElem hu i h⟩
  · exact fun it hmem => List.indexOf_lt_length.mpr hmem
  · exact fun it hit jt hjt h => (List.indexOf_inj hit hjt).mp h
  · intro j h
    exact ⟨(obsItems obs).get ⟨j, h⟩, List.get_mem _ _ _, List.indexOf_getElem hi j h⟩
  · intro o ho
    exact ⟨List.mem_dedup.mpr (List.mem_map_of_mem _ ho),
           List.mem_dedup.mpr (List.mem_map_of_mem _ ho)⟩

/-- Witness for C6: a three-observation build with a duplicate (user 1,
item 10) pair; the index map is onto and the duplicated cell keeps the
later value 3. -/
theorem create_utility_matrix_correct_witness :
    usersIndex [((1 : ℕ), (10 : ℕ), (5 : ℚ)), (1, 10, 3), (2, 11, 4)] 2 <
      (obsUsers [((1 : ℕ), (10 : ℕ), (5 : ℚ)), (1, 10, 3), (2, 11, 4)]).length ∧
    cellValue [((1 : ℕ), (10 : ℕ), (5 : ℚ)), (1, 10, 3), (2, 11, 4)] 1 10 = some 3 := by
  constructor
  · exact (create_utility_matrix_correct _).1.1 2 (by decide)
  · rw [(create_utility_matrix_correct
      [((1 : ℕ), (10 : ℕ), (5 : ℚ)), (1, 10, 3), (2, 11, 4)]).2.2.2 1 10]
    decide

end MatrixBuilder

section Predictor

/-- Embedding of `np.mean(out[users_ind[u], :])`: the mean of one row of the
reconstructed matrix. -/
def rowMean {n m : ℕ} (out : Matrix (Fin n) (Fin m) ℚ) (i : Fin n) : ℚ :=
  (∑ j, out i j) / (m : ℚ)

/-- Embedding of the prediction loop body:
`out[users_ind[u], movie_arr[it]]` when the item id is a key of the item
index map, else `np.mean(out[users_ind[u], :])`. -/
def predictRating {n m : ℕ} {κ : Type} [DecidableEq κ] (out : Matrix (Fin n) (Fin m) ℚ)
    (itemsIdx : List (κ × Fin m)) (uRow : Fin n) (itemId : κ) : ℚ :=
  match itemsIdx.lookup itemId with
  | some c => out uRow c
  | none => rowMean out uRow

/-- C3: a held-out observation whose item id is present in the item index
map is predicted by the reconstructed entry at its (user row, item column);
one whose item id is absent is predicted by the mean of the user's
reconstructed row. -/
theorem predictRating_spec {n m : ℕ} {κ : Type} [DecidableEq κ]
    (out : Matrix (Fin n) (Fin m) ℚ) (itemsIdx : List (κ × Fin m))
    (uRow : Fin n) (itemId : κ) :
    (∀ c, itemsIdx.lookup itemId = some c → predictRating out itemsIdx uRow itemId = out uRow c) ∧
    (itemsIdx.lookup itemId = none → predictRating out itemsIdx uRow itemId = rowMean out uRow) := by
  constructor
  · intro c hc
    simp [predictRating, hc]
  · intro hc
    simp [predictRating, hc]

/-- Witness for C3: a 2×2 reconstruction; item 10 is indexed at column 0 and
is predicted by the entry there, item 99 is unseen and falls back to the row
mean. -/
theorem predictRating_spec_witness :
    predictRating (Matrix.of ![![(1 : ℚ), 2], ![3, 4]]) [((10 : ℕ), (0 : Fin 2)), (11, 1)]
      (0 : Fin 2) 10 = Matrix.of ![![(1 : ℚ), 2], ![3, 4]] 0 0 ∧
    predictRating (Matrix.of ![![(1 : ℚ), 2], ![3, 4]]) [((10 : ℕ), (0 : Fin 2)), (11, 1)]
      (0 : Fin 2) 99 = rowMean (Matrix.of ![![(1 : ℚ), 2], ![3, 4]]) 0 :=
  ⟨(predictRating_spec _ _ _ _).1 0 (by decide),
   (predictRating_spec _ _ _ _).2 (by decide)⟩

end Predictor

section TopicRanker

/-- One step of the stable ascending insertion modelling `np.argsort`: the
new index goes after every already placed index whose value is not greater
than its own. -/
def argsortInsert (t : List ℚ) (i : ℕ) : List ℕ → List ℕ
  | [] => [i]
  | j :: rest =>
    if t.getD i 0 < t.getD j 0 then i :: j :: rest else j :: argsortInsert t i rest

/-- Embedding of `np.argsort(t)`: the positions of `t` sorted into ascending
value order. numpy's default `kind='quicksort'` guarantees only the ascending
value order, not a particular order among tied values (its introsort reorders
equal elements once a row exceeds the small-array insertion-sort cutoff), so
the embedding's insertion sort coincides with numpy exactly on rows below
that cutoff — such as the two-element counterexample row — while theorems
quantifying over all rows use only its value-order and permutation facts,
which hold for every ascending sort. -/
def argsort (t : List ℚ) : List ℕ :=
  (List.range t.length).foldl (fun acc i => argsortInsert t i acc) []

/-- Embedding of `top_words` inside `show_topics`:
`[vocab[i] for i in np.argsort(t)[:-num_top_words-1:-1]]` — the reversed
argsort truncated to N entries, mapped through the vocabulary (`pad` models
the unreachable out-of-range lookup). -/
def topWords {α : Type} (vocab : List α) (pad : α) (t : List ℚ) (N : ℕ) : List α :=
  ((argsort t).reverse.take N).map (fun i => vocab.getD i pad)

/-- Value-then-index ordering on positions of the weight row `t`. -/
def idxLe (t : List ℚ) (i j : ℕ) : Prop :=
  t.getD i 0 < t.getD j 0 ∨ (t.getD i 0 = t.getD j 0 ∧ i ≤ j)

theorem argsortInsert_perm (t : List ℚ) (i : ℕ) (l : List ℕ) :
    List.Perm (argsortInsert t i l) (i :: l) := by
  induction l with
  | nil => exact List.Perm.refl _
  | cons j rest ih =>
    unfold argsortInsert
    by_cases h : t.getD i 0 < t.getD j 0
    · rw [if_pos h]
    · rw [if_neg h]
      exact (ih.cons j).trans (List.Perm.swap i j rest)

theorem argsort_perm_aux (t : List ℚ) (l acc : List ℕ) :
    List.Perm (l.foldl (fun acc i => argsortInsert t i acc) acc) (acc ++ l) := by
  induction l generalizing acc with
  | nil => simp
  | cons a l ih =>
    have h1 : List.Perm (l.foldl (fun acc i => argsortInsert t i acc) (argsortInsert t a acc))
        (argsortInsert t a acc ++ l) := ih _
    have h2 : List.Perm (argsortInsert t a acc ++ l) ((a :: acc) ++ l) :=
      (argsortInsert_perm t a acc).append_right l
    have h3 : List.Perm ((a :: acc) ++ l) (acc ++ a :: l) := List.perm_middle.symm
    exact (h1.trans (h2.trans h3))

theorem argsortInsert_sorted (t : List ℚ) (i : ℕ) (l : List ℕ)
    (hs : l.Pairwise (idxLe t)) (hlt : ∀ x ∈ l, x < i) :
    (argsortInsert t i l).Pairwise (idxLe t) := by
  induction l with
  | nil => simp [argsortInsert]
  | cons j rest ih =>
    rw [List.pairwise_cons] at hs
    unfold argsortInsert
    by_cases h : t.getD i 0 < t.getD j 0
    · rw [if_pos h]
      refine List.Pairwise.cons ?_ (List.Pairwise.cons hs.1 hs.2)
      intro y hy
      rcases List.mem_cons.mp hy with rfl | hy'
      · exact Or.inl h
      · rcases hs.1 y hy' with hlt' | ⟨heq, -⟩
        · exact Or.inl (h.trans hlt')
        · exact Or.inl (heq ▸ h)
    · rw [if_neg h]
      refine List.Pairwise.cons ?_
        (ih hs.2 (fun x hx => hlt x (List.mem_cons_of_mem j hx)))
      intro y hy
      have hy2 : y = i ∨ y ∈ rest := by
        have := (argsortInsert_perm t i rest).mem_iff.mp hy
        simpa using this
      rcases hy2 with rfl | hy'
      · rcases lt_or_eq_of_le (not_lt.mp h) with hlt' | heq
        · exact Or.inl hlt'
        · exact Or.inr ⟨heq, le_of_lt (hlt j (List.mem_cons_self j rest))⟩
      · exact hs.1 y hy'

theorem argsort_sorted_aux (t : List ℚ) (l acc : List ℕ)
    (hacc : acc.Pairwise (idxLe t)) (hl : l.Pairwise (· < ·))
    (hcross : ∀ x ∈ acc, ∀ y ∈ l, x < y) :
    (l.foldl (fun acc i => argsortInsert t i acc) acc).Pairwise (idxLe t) := by
  induction l generalizing acc with
  | nil => exact hacc
  | cons a l ih =>
    rw [List.pairwise_cons] at hl
    refine ih (argsortInsert t a acc)
      (argsortInsert_sorted t a acc hacc
        (fun x hx => hcross x hx a (List.mem_cons_self a l)))
      hl.2 ?_
    intro x hx y hy
    have hx2 : x = a ∨ x ∈ acc := by
      have := (argsortInsert_perm t a acc).mem_iff.mp hx
      simpa using this
    rcases hx2 with rfl | hx'
    · exact hl.1 y hy
    · exact hcross x hx' y (List.mem_cons_of_mem a hy)

/-- The argsort of a weight row is a permutation of all positions, sorted by
value ascending with ties in ascending index order. -/
theorem argsort_sorted_perm (t : List ℚ) :
    (argsort t).Pairwise (idxLe t) ∧ List.Perm (argsort t) (List.range t.length) := by
  constructor
  · exact argsort_sorted_aux t (List.range t.length) [] List.Pairwise.nil
      (List.pairwise_lt_range _) (by simp)
  · simpa using argsort_perm_aux t (List.range t.length) []

/-- C8 counterexample: on the weight row [5,5] with vocabulary positions
[0,1] and N=2, the ranker returns the tied terms in descending index order
[1,0], not the claimed ascending order [0,1]. -/
theorem show_topics_tie_order_counterexample :
    topWords [(0 : ℕ), 1] 99 [(5 : ℚ), 5] 2 = [1, 0] ∧
    topWords [(0 : ℕ), 1] 99 [(5 : ℚ), 5] 2 ≠ [0, 1] := by
  constructor <;> decide

/-- C8 amended: for every weight row, the ranker's reversed argsort is a
permutation of all positions in non-increasing value order, so its first N
entries are N indices achieving the largest values, in descending value
order, and the returned terms are the vocabulary entries of those positions
in that order; the selection is a pure function of the row and N. The order
among tied values is implementation-defined (numpy's default sort is not
stable) and in particular not index-ascending: on the concrete
counterexample row it comes out index-descending. -/
theorem show_topics_selection (t : List ℚ) :
    List.Perm (argsort t).reverse (List.range t.length) ∧
    ((argsort t).reverse.Pairwise (fun i j => t.getD j 0 ≤ t.getD i 0)) ∧
    (∀ (α : Type) (vocab : List α) (pad : α) (N : ℕ),
      topWords vocab pad t N = ((argsort t).reverse.take N).map (fun i => vocab.getD i pad)) := by
  refine ⟨((argsort t).reverse_perm).trans (argsort_sorted_perm t).2, ?_,
    fun α vocab pad N => rfl⟩
  refine List.pairwise_reverse.mpr ((argsort_sorted_perm t).1.imp ?_)
  intro a b hab
  rcases hab with hlt | ⟨heq, -⟩
  · exact le_of_lt hlt
  · exact le_of_eq heq

end TopicRanker

section SVDEngine

variable {n m r : ℕ}

/-- The non-missing values of column j — the cells
`np.ma.masked_array(mat, np.isnan(mat))` leaves unmasked. -/
def colVals (A : Fin n → Fin m → Option ℚ) (j : Fin m) : List ℚ :=
  (List.finRange n).filterMap (fun i => A i j)

/-- Embedding of `np.mean(arr_p, axis=0)`: the mean of column j over its
non-missing cells. -/
def colMean (A : Fin n → Fin m → Option ℚ) (j : Fin m) : ℚ :=
  (colVals A j).sum / ((colVals A j).length : ℚ)

/-- Embedding of `mat = arr_p.filled(np.mean(arr_p, axis=0))` — the Imputer:
each missing cell replaced by its column's mean over non-missing cells. -/
def impute (A : Fin n → Fin m → Option ℚ) : Matrix (Fin n) (Fin m) ℚ :=
  Matrix.of (fun i j => (A i j).getD (colMean A j))

/-- Embedding of `x = np.tile(np.mean(arr_p, axis=0), (mat.shape[0], 1))`:
the column-mean vector broadcast across rows. -/
def meanMatrix (A : Fin n → Fin m → Option ℚ) : Matrix (Fin n) (Fin m) ℚ :=
  Matrix.of (fun _ j => colMean A j)

/-- The matrix `mat - x` handed to `np.linalg.svd`. -/
def centered (A : Fin n → Fin m → Option ℚ) : Matrix (Fin n) (Fin m) ℚ :=
  impute A - meanMatrix A

/-- Python slice `U[:, 0:k]` of an n×r matrix: the first min(k,r) columns
(slicing clamps silently, it never fails). -/
def sliceCols (U : Matrix (Fin n) (Fin r) ℚ) (k : ℕ) :
    Matrix (Fin n) (Fin (min k r)) ℚ :=
  Matrix.of (fun i j => U i (Fin.castLE (min_le_right k r) j))

/-- Python slice `V[0:k, :]` of an r×m matrix: the first min(k,r) rows. -/
def sliceRows (V : Matrix (Fin r) (Fin m) ℚ) (k : ℕ) :
    Matrix (Fin (min k r)) (Fin m) ℚ :=
  Matrix.of (fun i j => V (Fin.castLE (min_le_right k r) i) j)

/-- Python slice `s[0:k, 0:k]` of the diagonal matrix `np.diag(d)` — again a
diagonal matrix, of the first min(k,r) entries of d. -/
def sliceDiag (d : Fin r → ℚ) (k : ℕ) :
    Matrix (Fin (min k r)) (Fin (min k r)) ℚ :=
  Matrix.diagonal (fun j => d (Fin.castLE (min_le_right k r) j))

/-- Embedding of the body of `def svd(mat, k)`. The library decomposition
`np.linalg.svd(mat - x, full_matrices=False)` is an external black box, so
its outputs enter as parameters: `U`, `V`, and the entrywise square roots
`rt` of the singular values (on a diagonal matrix with non-negative entries
`scipy.linalg.sqrtm` is the diagonal matrix of entrywise square roots);
theorems constrain them by factorization hypotheses. The result is
`np.dot(np.dot(U[:,0:k], sqrtm(s[0:k,0:k])), np.dot(sqrtm(s[0:k,0:k]), V[0:k,:])) + x`. -/
def svd (A : Fin n → Fin m → Option ℚ) (U : Matrix (Fin n) (Fin r) ℚ)
    (rt : Fin r → ℚ) (V : Matrix (Fin r) (Fin m) ℚ) (k : ℕ) :
    Matrix (Fin n) (Fin m) ℚ :=
  (sliceCols U k * sliceDiag rt k) * (sliceDiag rt k * sliceRows V k) + meanMatrix A

/-- Entrywise form of the engine's output. -/
theorem svd_apply (A : Fin n → Fin m → Option ℚ) (U : Matrix (Fin n) (Fin r) ℚ)
    (rt : Fin r → ℚ) (V : Matrix (Fin r) (Fin m) ℚ) (k : ℕ) (i : Fin n) (j : Fin m) :
    svd A U rt V k i j =
      (∑ a : Fin (min k r), U i (Fin.castLE (min_le_right k r) a) *
        rt (Fin.castLE (min_le_right k r) a) *
        (rt (Fin.castLE (min_le_right k r) a) * V (Fin.castLE (min_le_right k r) a) j)) +
      colMean A j := by
  unfold svd
  rw [Matrix.add_apply, Matrix.mul_apply]
  simp only [sliceDiag, Matrix.mul_diagonal, Matrix.diagonal_mul, sliceCols, sliceRows,
    meanMatrix, Matrix.of_apply]

/-- C1: for a fully dense matrix and a rank 1 ≤ k ≤ min(n,m), given the thin
(r = min(n,m)) singular value decomposition U·diag(s)·V of the
column-mean-centered matrix and the entrywise square roots rt of s, the
engine returns the truncated reconstruction U[:,:k]·Σ[:k,:k]·V[:k,:] plus
the column-mean matrix that was subtracted before factorization: the
symmetric square-root split used as an intermediate step yields exactly
that product. -/
theorem svd_rank_k_reconstruction (A : Fin n → Fin m → Option ℚ)
    (U : Matrix (Fin n) (Fin r) ℚ) (s rt : Fin r → ℚ)
    (V : Matrix (Fin r) (Fin m) ℚ) (k : ℕ)
    (hr : r = min n m)
    (hdense : ∀ i j, A i j ≠ none)
    (hsvd : ∀ i j, centered A i j = (U * Matrix.diagonal s * V) i j)
    (hrt : ∀ i, rt i * rt i = s i) (hk1 : 1 ≤ k) (hk2 : k ≤ min n m) :
    svd A U rt V k = sliceCols U k * sliceDiag s k * sliceRows V k + meanMatrix A := by
  unfold svd
  have hdd : sliceDiag rt k * sliceDiag rt k = sliceDiag s k := by
    unfold sliceDiag
    rw [Matrix.diagonal_mul_diagonal]
    exact congrArg Matrix.diagonal (funext (fun j => hrt _))
  rw [Matrix.mul_assoc (sliceCols U k) (sliceDiag rt k) (sliceDiag rt k * sliceRows V k),
    ← Matrix.mul_assoc (sliceDiag rt k) (sliceDiag rt k) (sliceRows V k), hdd,
    ← Matrix.mul_assoc (sliceCols U k) (sliceDiag s k) (sliceRows V k)]

/-- Witness for C1: the dense 2×2 matrix [[1,2],[1,2]] centers to the zero
matrix, whose rational SVD is U = I, s = 0, V = I with square roots rt = 0;
instantiated at rank k = 1. -/
theorem svd_rank_k_reconstruction_witness :
    svd (fun i j => some (Matrix.of ![![(1 : ℚ), 2], ![1, 2]] i j))
      (1 : Matrix (Fin 2) (Fin 2) ℚ) (fun _ => 0) (1 : Matrix (Fin 2) (Fin 2) ℚ) 1 =
    sliceCols (1 : Matrix (Fin 2) (Fin 2) ℚ) 1 * sliceDiag (fun _ : Fin 2 => (0 : ℚ)) 1 *
      sliceRows (1 : Matrix (Fin 2) (Fin 2) ℚ) 1 +
      meanMatrix (fun i j => some (Matrix.of ![![(1 : ℚ), 2], ![1, 2]] i j)) :=
  svd_rank_k_reconstruction _ _ (fun _ => 0) _ _ 1
    (by decide) (by decide)
    (by
      intro i j
      fin_cases i <;> fin_cases j <;>
        simp [centered, impute, meanMatrix, colMean, colVals, Matrix.sub_apply,
          Matrix.of_apply, Matrix.mul_apply, Matrix.one_apply, Matrix.diagonal,
          List.finRange_succ, List.finRange_zero, Fin.sum_univ_succ] <;> norm_num)
    (fun i => by norm_num) (by decide) (by decide)

/-- C4 counterexample: on the dense 2×2 matrix [[1,2],[1,2]] (centered
matrix zero, SVD factors U = I, s = 0, V = I), calling the engine with the
out-of-range rank k = 3 > min(2,2) returns the same reconstruction as
k = 2 — a matrix, not an InvalidRank failure. -/
theorem svd_no_invalid_rank_failure :
    svd (fun i j => some (Matrix.of ![![(1 : ℚ), 2], ![1, 2]] i j))
      (1 : Matrix (Fin 2) (Fin 2) ℚ) (fun _ => 0) (1 : Matrix (Fin 2) (Fin 2) ℚ) 3 =
    svd (fun i j => some (Matrix.of ![![(1 : ℚ), 2], ![1, 2]] i j))
      (1 : Matrix (Fin 2) (Fin 2) ℚ) (fun _ => 0) (1 : Matrix (Fin 2) (Fin 2) ℚ) 2 ∧
    svd (fun i j => some (Matrix.of ![![(1 : ℚ), 2], ![1, 2]] i j))
      (1 : Matrix (Fin 2) (Fin 2) ℚ) (fun _ => 0) (1 : Matrix (Fin 2) (Fin 2) ℚ) 3 =
    Matrix.of ![![(1 : ℚ), 2], ![1, 2]] := by
  constructor
  · rfl
  · apply Matrix.ext
    intro i j
    rw [svd_apply]
    fin_cases i <;> fin_cases j <;>
      simp [colMean, colVals, Matrix.of_apply, List.finRange_succ, List.finRange_zero] <;>
      norm_num

/-- C4 amended: the engine performs no rank validation: Python slicing
clamps, so every rank k ≥ r = min(n,m) returns the same reconstruction as
k = r, and k = 0 yields the bare column-mean matrix; no InvalidRank failure
exists on any code path. -/
theorem svd_rank_clamps (A : Fin n → Fin m → Option ℚ)
    (U : Matrix (Fin n) (Fin r) ℚ) (rt : Fin r → ℚ) (V : Matrix (Fin r) (Fin m) ℚ)
    (k : ℕ) (hk : r ≤ k) :
    svd A U rt V k = svd A U rt V r ∧ svd A U rt V 0 = meanMatrix A := by
  constructor
  · apply Matrix.ext
    intro i j
    rw [svd_apply, svd_apply]
    congr 1
    have h1 : min k r = min r r := by omega
    refine Fintype.sum_equiv (finCongr h1) _ _ (fun a => ?_)
    have hcast : Fin.castLE (min_le_right k r) a =
        Fin.castLE (min_le_right r r) (finCongr h1 a) := by
      apply Fin.ext
      simp
    rw [hcast]
  · apply Matrix.ext
    intro i j
    rw [svd_apply]
    have hz : ∀ g : Fin (min 0 r) → ℚ, (∑ a : Fin (min 0 r), g a) = 0 :=
      fun g => Finset.sum_eq_zero (fun a _ => absurd a.isLt (by omega))
    rw [hz, zero_add]
    rfl

/-- Witness for the amended C4: clamping at n = m = r = 2, k = 3. -/
theorem svd_rank_clamps_witness :
    svd (fun i j => some (Matrix.of ![![(1 : ℚ), 2], ![1, 2]] i j))
      (1 : Matrix (Fin 2) (Fin 2) ℚ) (fun _ => 0) (1 : Matrix (Fin 2) (Fin 2) ℚ) 3 =
    svd (fun i j => some (Matrix.of ![![(1 : ℚ), 2], ![1, 2]] i j))
      (1 : Matrix (Fin 2) (Fin 2) ℚ) (fun _ => 0) (1 : Matrix (Fin 2) (Fin 2) ℚ) 2 ∧
    svd (fun i j => some (Matrix.of ![![(1 : ℚ), 2], ![1, 2]] i j))
      (1 : Matrix (Fin 2) (Fin 2) ℚ) (fun _ => 0) (1 : Matrix (Fin 2) (Fin 2) ℚ) 0 =
    meanMatrix (fun i j => some (Matrix.of ![![(1 : ℚ), 2], ![1, 2]] i j)) :=
  svd_rank_clamps _ _ _ _ 3 (by decide)

/-- A 3×2 sample utility matrix with one missing cell at row 0, column 1. -/
def sampleA : Fin 3 → Fin 2 → Option ℚ :=
  fun i j => Matrix.of ![![some 1, none], ![some 2, some 2], ![some 3, some 4]] i j

/-- C7: when every column has a non-missing cell, the Imputer replaces each
missing cell by the mean of that column's non-missing cells (the column-mean
vector it also produces), leaves every non-missing cell unchanged, the
column means genuinely average the non-missing cells, and on a fully dense
input it returns the matrix unchanged with the true column means. -/
theorem impute_spec (A : Fin n → Fin m → Option ℚ) (B : Matrix (Fin n) (Fin m) ℚ)
    (hcol : ∀ j, ∃ i, A i j ≠ none) :
    (∀ i j, A i j = none → impute A i j = colMean A j) ∧
    (∀ i j v, A i j = some v → impute A i j = v) ∧
    (∀ j, colVals A j ≠ [] ∧
      colMean A j * ((colVals A j).length : ℚ) = (colVals A j).sum) ∧
    (impute (fun i j => some (B i j)) = B ∧
      ∀ j, colMean (fun i j => some (B i j)) j = (∑ i, B i j) / (n : ℚ)) := by
  refine ⟨?_, ?_, ?_, ?_, ?_⟩
  · intro i j h
    simp [impute, h]
  · intro i j v h
    simp [impute, h]
  · intro j
    obtain ⟨i, hi⟩ := hcol j
    obtain ⟨v, hv⟩ := Option.ne_none_iff_exists'.mp hi
    have hmem : v ∈ colVals A j :=
      List.mem_filterMap.mpr ⟨i, List.mem_finRange i, hv⟩
    have hne : colVals A j ≠ [] := List.ne_nil_of_mem hmem
    refine ⟨hne, ?_⟩
    have hlen : ((colVals A j).length : ℚ) ≠ 0 :=
      Nat.cast_ne_zero.mpr (Nat.pos_iff_ne_zero.mp (List.length_pos.mpr hne))
    unfold colMean
    exact div_mul_cancel₀ _ hlen
  · apply Matrix.ext
    intro i j
    simp [impute]
  · intro j
    have hvals : colVals (fun i j => some (B i j)) j =
        (List.finRange n).map (fun i => B i j) :=
      congrFun (List.filterMap_eq_map (fun i => B i j)) _
    unfold colMean
    rw [hvals]
    simp [Fin.sum_univ_def]

/-- Witness for C7: on the 3×2 sample, the missing cell (0,1) is imputed
with column 1's mean 3 (the mean of the two present values 2 and 4), the
present cell (1,1) is unchanged, and the dense part holds for the 2×2
matrix [[1,2],[3,4]]. -/
theorem impute_spec_witness :
    impute sampleA 0 1 = colMean sampleA 1 ∧ colMean sampleA 1 = 3 ∧
    impute sampleA 1 1 = 2 ∧
    impute (fun i j => some (Matrix.of ![![(1 : ℚ), 2], ![3, 4]] i j)) =
      Matrix.of ![![(1 : ℚ), 2], ![3, 4]] :=
  ⟨(impute_spec sampleA 0 (by decide)).1 0 1 (by decide),
   by
    simp [colMean, colVals, sampleA, Matrix.of_apply, List.finRange_succ, List.finRange_zero]
    norm_num,
   (impute_spec sampleA 0 (by decide)).2.1 1 1 2 (by decide),
   (impute_spec (fun i j => some (Matrix.of ![![(1 : ℚ), 2], ![3, 4]] i j))
     (Matrix.of ![![(1 : ℚ), 2], ![3, 4]]) (by decide)).2.2.2.1⟩

/-- C10: after the SVD routine imputes each missing cell with its column
mean and subtracts the same column-mean matrix, every originally missing
cell of the centered matrix passed to the decomposition is exactly zero. -/
theorem centered_missing_cells_zero (A : Fin n → Fin m → Option ℚ)
    (hcol : ∀ j, ∃ i, A i j ≠ none) (i : Fin n) (j : Fin m)
    (hij : A i j = none) : centered A i j = 0 := by
  simp [centered, Matrix.sub_apply, impute, meanMatrix, hij]

/-- Witness for C10: the missing cell (0,1) of the 3×2 sample is zero after
centering. -/
theorem centered_missing_cells_zero_witness : centered sampleA 0 1 = 0 :=
  centered_missing_cells_zero sampleA (by decide) 0 1 (by decide)

end SVDEngine
